import Mathlib

/-!
Verification development for the doc-assistants retrieval subsystem and its
frontend helpers.  The backend services (hybrid retriever, date parser, query
analyzer, chunker, retrieval semaphore) are embedded from the specification
and the backend README's code excerpts; the frontend helpers (`authAPI.logout`,
`smartMergeSessions`) are embedded from the TypeScript sources.
-/

namespace DocAssistants

/-! ## Hybrid Retriever (services/vectorstore.py, modelled) -/

/-- Retrieval strategy selected by the query analyzer. -/
inductive Strategy where
  | explicit
  | month_range
  | no_filter
deriving DecidableEq, Repr

/-- Modelled from the spec: a retrievable fragment as seen by the hybrid
retriever — its text (`page_content`) and the optional `date` entry of its
metadata bag.  The backend file `services/vectorstore.py` is absent from the
sources; only the README's code excerpt documents it. -/
structure Doc where
  page_content : String
  date : Option String
deriving DecidableEq, Repr

/-- Normalized retrieval request passed to the hybrid retriever. -/
structure RetrievalQuery where
  text : String
  dates : List String
  strategy : Strategy
deriving DecidableEq, Repr

/-- Insertion step of a string-keyed insertion-ordered map held as a list:
a key already present keeps its position and takes the later value, a new
key is appended.  This is the shared semantics of a Python dict comprehension
and a JavaScript `Map.set`. -/
def dictInsertBy {α : Type} (key : α → String) (m : List α) (d : α) : List α :=
  if m.any (fun e => key e == key d) then
    m.map (fun e => if key e == key d then d else e)
  else
    m ++ [d]

/-- Modelled from the spec: single insertion step of the deduplicating union
`\x7bdoc.page_content: doc for doc in all_docs\x7d`. -/
def dictInsert (m : List Doc) (d : Doc) : List Doc :=
  dictInsertBy Doc.page_content m d

/-- Modelled from the spec: union of dense and sparse candidates,
deduplicated by exact fragment text. -/
def dedupByContent (ds : List Doc) : List Doc :=
  ds.foldl dictInsert []

/-- The strict date filter is active exactly when the strategy is not
`no_filter` and the target date set is non-empty. -/
def strictFilterActive (q : RetrievalQuery) : Bool :=
  q.strategy != Strategy.no_filter && !q.dates.isEmpty

/-- A fragment passes the strict filter when its metadata `date` is present
and is a member of the target date set. -/
def dateMatch (dates : List String) (d : Doc) : Bool :=
  match d.date with
  | some dt => dates.contains dt
  | none => false

/-- Modelled from the spec: the candidate set after the single filtering
decision point — strictly filtered when the filter is active, the plain
deduplicated union otherwise.  There is no second, unfiltered attempt. -/
def filteredCandidates (q : RetrievalQuery) (dense bm25 : List Doc) : List Doc :=
  let union := dedupByContent (dense ++ bm25)
  if strictFilterActive q then union.filter (dateMatch q.dates) else union

/-- Modelled from the spec: `HybridRetriever.retrieve` — dense and sparse
candidates are unioned, deduplicated by content, strictly date-filtered, and
truncated to the final top-k. -/
def retrieve (q : RetrievalQuery) (dense bm25 : List Doc) (final_k : Nat) : List Doc :=
  (filteredCandidates q dense bm25).take final_k

/-! ## Date Parser (services/date_parser_service.py, modelled) -/

/-- Characters that separate words in a query. -/
def isSepChar (c : Char) : Bool :=
  c = ' ' || c = ',' || c = '.' || c = '?' || c = '!' || c = ':' || c = ';' ||
  c = '\n' || c = '\t' || c = '(' || c = ')' || c = '"'

/-- Dash characters that join the two ends of a day range such as "1–3". -/
def isDashChar (c : Char) : Bool :=
  c = '-' || c = '–' || c = '—'

def splitWordsAux : List Char → List Char → List (List Char)
  | [], cur => if cur.isEmpty then [] else [cur.reverse]
  | c :: cs, cur =>
    if isSepChar c then
      if cur.isEmpty then splitWordsAux cs [] else cur.reverse :: splitWordsAux cs []
    else
      splitWordsAux cs (c :: cur)

/-- Split a character stream into words at separator characters. -/
def splitWords (cs : List Char) : List (List Char) :=
  splitWordsAux cs []

def splitDashAux : List Char → List Char → List (List Char)
  | [], cur => [cur.reverse]
  | c :: cs, cur =>
    if isDashChar c then cur.reverse :: splitDashAux cs []
    else splitDashAux cs (c :: cur)

/-- Split one word at dash characters, keeping empty parts. -/
def splitDash (w : List Char) : List (List Char) :=
  splitDashAux w []

def digitVal (c : Char) : Nat := c.toNat - 48

/-- Numeric value of a word made of decimal digits. -/
def natOfDigits (w : List Char) : Nat :=
  w.foldl (fun acc c => acc * 10 + digitVal c) 0

def isDigitWord (w : List Char) : Bool :=
  !w.isEmpty && w.all Char.isDigit

/-- Indonesian and English month names, lowercased, with month numbers. -/
def monthNames : List (List Char × Nat) :=
  [("januari".toList, 1), ("january".toList, 1),
   ("februari".toList, 2), ("february".toList, 2),
   ("maret".toList, 3), ("march".toList, 3),
   ("april".toList, 4),
   ("mei".toList, 5), ("may".toList, 5),
   ("juni".toList, 6), ("june".toList, 6),
   ("juli".toList, 7), ("july".toList, 7),
   ("agustus".toList, 8), ("august".toList, 8),
   ("september".toList, 9),
   ("oktober".toList, 10), ("october".toList, 10),
   ("november".toList, 11),
   ("desember".toList, 12), ("december".toList, 12)]

def monthOf (w : List Char) : Option Nat :=
  (monthNames.find? (fun p => p.1 == w)).map (fun p => p.2)

/-- Classified query token. -/
inductive QTok where
  | day (n : Nat)
  | dayRange (a b : Nat)
  | yearNum (y : Nat)
  | monthName (m : Nat)
  | rangeConn
  | listConn
  | skipWord
  | other
deriving DecidableEq, Repr

/-- Modelled from the spec: classification of one lowercased word of the
query into a date-expression token.  `services/date_parser_service.py` is
absent from the sources; the grammar follows the spec's supported forms and
the README's examples. -/
def classifyWord (w : List Char) : QTok :=
  match monthOf w with
  | some m => QTok.monthName m
  | none =>
    if isDigitWord w then
      let n := natOfDigits w
      if 1000 ≤ n then QTok.yearNum n
      else if 1 ≤ n && n ≤ 31 then QTok.day n
      else QTok.other
    else
      match splitDash w with
      | [a, b] =>
        if isDigitWord a && isDigitWord b then
          let x := natOfDigits a
          let y := natOfDigits b
          if 1 ≤ x && x ≤ 31 && 1 ≤ y && y ≤ 31 then QTok.dayRange x y
          else QTok.other
        else QTok.other
      | _ =>
        if w == "sampai".toList || w == "hingga".toList || w == "to".toList ||
           w == "sd".toList then QTok.rangeConn
        else if w == "dan".toList || w == "and".toList then QTok.listConn
        else if w == "dari".toList || w == "sepanjang".toList ||
                w == "tanggal".toList || w == "pada".toList ||
                w == "from".toList then QTok.skipWord
        else QTok.other

/-- Lex a query: lowercase, split into words, classify each word. -/
def lexQuery (q : String) : List QTok :=
  (splitWords (q.toList.map Char.toLower)).map classifyWord

/-- Find the first month-name token, returning the tokens before it, the
month number, and the tokens after it. -/
def splitAtMonth : List QTok → Option (List QTok × Nat × List QTok)
  | [] => none
  | QTok.monthName m :: rest => some ([], m, rest)
  | t :: rest =>
    (splitAtMonth rest).map (fun pmp => (t :: pmp.1, pmp.2.1, pmp.2.2))

/-- Canonical corpus year assumed when the year is omitted. -/
def defaultYear : Nat := 2025

/-- Year of the expression: a four-digit number right after the month name,
else the canonical default year. -/
def yearOf : List QTok → Nat
  | QTok.yearNum y :: _ => y
  | _ => defaultYear

/-- Every day in the inclusive range from `a` to `b`. -/
def rangeDays (a b : Nat) : List Nat :=
  if a ≤ b then List.range' a (b - a + 1) else []

/-- Walking backwards from the month name, keep the connected chain of day
numbers, day ranges and connector words; a leading keyword such as
"tanggal"/"dari" closes the chain. -/
def takeChainRev : List QTok → List QTok
  | [] => []
  | QTok.day n :: rest => QTok.day n :: takeChainRev rest
  | QTok.dayRange a b :: rest => QTok.dayRange a b :: takeChainRev rest
  | QTok.rangeConn :: rest => QTok.rangeConn :: takeChainRev rest
  | QTok.listConn :: rest => QTok.listConn :: takeChainRev rest
  | QTok.skipWord :: _ => [QTok.skipWord]
  | _ => []

/-- Fold over the day chain: a day after a range connector extends the
previous day into an inclusive range, otherwise days and explicit
day-range tokens accumulate. -/
def collectDaysGo : List QTok → Option Nat → Bool → List Nat → List Nat
  | [], _, _, acc => acc
  | QTok.day n :: rest, pending, rangeFlag, acc =>
    match pending, rangeFlag with
    | some a, true => collectDaysGo rest (some n) false (acc ++ rangeDays a n)
    | _, _ => collectDaysGo rest (some n) false (acc ++ [n])
  | QTok.dayRange a b :: rest, _, _, acc =>
    collectDaysGo rest (some b) false (acc ++ rangeDays a b)
  | QTok.rangeConn :: rest, pending, _, acc => collectDaysGo rest pending true acc
  | QTok.listConn :: rest, pending, _, acc => collectDaysGo rest pending false acc
  | QTok.skipWord :: rest, pending, flag, acc => collectDaysGo rest pending flag acc
  | _ :: rest, _, _, acc => collectDaysGo rest none false acc

def collectDays (ts : List QTok) : List Nat :=
  collectDaysGo ts none false []

/-- Order-preserving numeric key of a calendar date. -/
def mkKey (y m d : Nat) : Nat := y * 10000 + m * 100 + d

/-- Modelled from the spec: the raw (unsorted) date keys extracted from a
query — day chain before the first month name, year after it. -/
def rawDateKeys (q : String) : List Nat :=
  match splitAtMonth (lexQuery q) with
  | none => []
  | some (pre, m, post) =>
    (collectDays ((takeChainRev pre.reverse).reverse)).map
      (fun d => mkKey (yearOf post) m d)

/-- Insert a key into a strictly sorted list, dropping duplicates. -/
def insertKey (x : Nat) : List Nat → List Nat
  | [] => [x]
  | y :: ys =>
    if x < y then x :: y :: ys
    else if x = y then y :: ys
    else y :: insertKey x ys

/-- Sort ascending and remove duplicates. -/
def sortDedupKeys (l : List Nat) : List Nat :=
  l.foldr insertKey []

def parseDateKeys (q : String) : List Nat :=
  sortDedupKeys (rawDateKeys q)

def pad2 (n : Nat) : String :=
  if n < 10 then "0" ++ toString n else toString n

/-- Render a date key as an ISO `YYYY-MM-DD` string. -/
def isoOfKey (k : Nat) : String :=
  toString (k / 10000) ++ "-" ++ pad2 (k % 10000 / 100) ++ "-" ++ pad2 (k % 100)

/-- Modelled from the spec: `parse_multiple_dates_from_question` — the list
of ISO dates found in the query, ascending, duplicates removed, empty when
no date expression is present. -/
def parse_multiple_dates_from_question (q : String) : List String :=
  (parseDateKeys q).map isoOfKey

/-- Whether the lexed query contains any month-name token; every supported
date-expression form requires one. -/
def hasMonthToken (q : String) : Bool :=
  (lexQuery q).any (fun t => match t with | QTok.monthName _ => true | _ => false)

/-! ## Query Analyzer (services/query_analyzer.py, modelled) -/

def isPrefixOfL : List Char → List Char → Bool
  | [], _ => true
  | _ :: _, [] => false
  | a :: as, b :: bs => a == b && isPrefixOfL as bs

/-- Whether `needle` occurs as a contiguous substring of `hay`. -/
def containsSub (needle : List Char) : List Char → Bool
  | [] => needle.isEmpty
  | c :: cs => isPrefixOfL needle (c :: cs) || containsSub needle cs

/-- Modelled from the spec: the comparative-intent lexicon — superlatives,
trend words and stability words from the spec and the README
("paling baik", "lebih stabil", "tren", "perubahan").
`services/query_analyzer.py` is absent from the sources. -/
def comparativeLexicon : List (List Char) :=
  ["paling".toList, "lebih".toList, "terbaik".toList, "tertinggi".toList,
   "terendah".toList, "tren".toList, "trend".toList, "perubahan".toList,
   "stabil".toList, "best".toList, "most".toList, "change over".toList]

/-- Modelled from the spec: `is_comparative_query` — keyword match of the
lowercased query text against the comparative-intent lexicon. -/
def is_comparative_query (query : String) : Bool :=
  comparativeLexicon.any (fun p => containsSub p (query.toList.map Char.toLower))

/-- Every calendar date of the corpus's canonical month (March 2025). -/
def generate_full_month_dates : List String :=
  (List.range' 1 31).map (fun d => isoOfKey (mkKey defaultYear 3 d))

/-- Modelled from the spec: `analyze_query_and_get_dates` — explicit dates
win, otherwise comparative queries widen to the full canonical month,
otherwise no filter at all. -/
def analyze_query_and_get_dates (query : String) (parsed_dates : List String) :
    List String × Strategy :=
  if !parsed_dates.isEmpty then (parsed_dates, Strategy.explicit)
  else if is_comparative_query query then (generate_full_month_dates, Strategy.month_range)
  else ([], Strategy.no_filter)

/-- The date set the chat layer passes onward for a query. -/
def dates_to_use (q : String) : List String :=
  (analyze_query_and_get_dates q (parse_multiple_dates_from_question q)).1

/-- Modelled from the spec: the date hint `chat_with_assistant` appends to
the outgoing prompt — detected dates when present, otherwise the hard-coded
default "Use March 1-5, 2025". -/
def build_date_hint (dates : List String) : String :=
  if dates.isEmpty then "[SYSTEM HINT: Use March 1-5, 2025]"
  else "[SYSTEM HINT: Detected dates: " ++ String.intercalate ", " dates ++ "]"

/-- Modelled from the spec: the enhanced query sent to the reasoning
service, the user query plus the date hint. -/
def enhanced_query (q : String) : String :=
  q ++ "\n\n" ++ build_date_hint (dates_to_use q)

/-! ## Retrieval concurrency limiter (retrieval_semaphore, modelled) -/

/-- Capacity of the retrieval semaphore. -/
def semCapacity : Nat := 3

/-- Modelled from the spec: observable state of the bounded retrieval
limiter — how many retrievals are running and how many are queued.
`services/vectorstore.py` with `retrieval_semaphore = asyncio.Semaphore(3)`
is absent from the sources. -/
structure SemState where
  running : Nat
  queued : Nat
deriving DecidableEq, Repr

/-- Modelled from the spec: transitions of the bounded limiter.  An arrival
below capacity starts running; an arrival at capacity queues (it never
fails); a finishing retrieval hands its slot to a queued request when one
waits, else frees it. -/
inductive SemStep : SemState → SemState → Prop where
  | acquire (s : SemState) : s.running < semCapacity →
      SemStep s ⟨s.running + 1, s.queued⟩
  | enqueue (s : SemState) : semCapacity ≤ s.running →
      SemStep s ⟨s.running, s.queued + 1⟩
  | releaseWake (s : SemState) : 0 < s.running → 0 < s.queued →
      SemStep s ⟨s.running, s.queued - 1⟩
  | release (s : SemState) : 0 < s.running → s.queued = 0 →
      SemStep s ⟨s.running - 1, 0⟩

/-- States reachable from the idle limiter. -/
inductive SemReachable : SemState → Prop where
  | init : SemReachable ⟨0, 0⟩
  | step {s t : SemState} : SemReachable s → SemStep s t → SemReachable t

/-! ## Chunker (services/document_loader.py chunk_documents, modelled) -/

/-- Target fragment size in characters. -/
def chunkSize : Nat := 1000

/-- Overlap between consecutive fragments of one document. -/
def chunkOverlap : Nat := 200

/-- Distance between the starts of consecutive fragments. -/
def chunkStride : Nat := chunkSize - chunkOverlap

/-- Modelled from the spec: `chunk_documents` — fragments of the target
size with the fixed overlap between consecutive fragments; a document no
longer than the target size is one fragment.  `services/document_loader.py`
is absent from the sources; the text is embedded as its character list. -/
def chunkChars (text : List Char) : List (List Char) :=
  if h : text.length ≤ chunkSize then
    let _ := h
    [text]
  else text.take chunkSize :: chunkChars (text.drop chunkStride)
termination_by text.length
decreasing_by
  simp only [List.length_drop]
  have h1 : chunkStride = 800 := rfl
  have h2 : chunkSize = 1000 := rfl
  omega

/-- Concatenate fragments back, trimming the known overlap from every
fragment after the first. -/
def reconstructChars : List (List Char) → List Char
  | [] => []
  | c :: cs => c ++ (cs.map (fun f => f.drop chunkOverlap)).flatten

/-! ## authAPI.logout (frontend api client) -/

/-- Browser cookie state relevant to authentication. -/
structure CookieState where
  auth_token : Option String
  session_id : Option String
deriving DecidableEq, Repr

/-- Outcome of the `POST /auth/logout` request: it either succeeds or
throws with a message. -/
inductive HttpOutcome where
  | success
  | failure (msg : String)
deriving DecidableEq, Repr

/-- Embedding of `authAPI.logout`: the awaited POST runs in a `try` block,
the `catch` only logs, and the `finally` removes the `auth_token` and
`session_id` cookies.  Returns the cookie state after the call and whether
the returned promise resolves. -/
def logout (post : HttpOutcome) (c : CookieState) : CookieState × Bool :=
  let tryResult : Except String Unit :=
    match post with
    | HttpOutcome.success => Except.ok ()
    | HttpOutcome.failure m => Except.error m
  let caught : Except String Unit :=
    match tryResult with
    | Except.ok u => Except.ok u
    | Except.error _ => Except.ok ()
  let c1 : CookieState := { c with auth_token := none }
  let c2 : CookieState := { c1 with session_id := none }
  (c2, match caught with | Except.ok _ => true | Except.error _ => false)

/-! ## smartMergeSessions (frontend chatService.ts) -/

/-- Chat session record as merged by the chat service. -/
structure ChatSession where
  id : String
  title : String
  lastUpdated : Nat
deriving DecidableEq, Repr

/-- Descending order on `lastUpdated`, the comparator
`(a, b) => b.lastUpdated - a.lastUpdated` of the source. -/
def sessionGE (a b : ChatSession) : Prop :=
  b.lastUpdated ≤ a.lastUpdated

instance : DecidableRel sessionGE :=
  fun a b => Nat.decLe b.lastUpdated a.lastUpdated

instance : IsTotal ChatSession sessionGE :=
  ⟨fun a b => Nat.le_total b.lastUpdated a.lastUpdated⟩

instance : IsTrans ChatSession sessionGE :=
  ⟨fun _ _ _ hab hbc => Nat.le_trans hbc hab⟩

/-- The `merged.has(id)` test of the source. -/
def mapHas (m : List ChatSession) (id : String) : Bool :=
  m.any (fun e => e.id == id)

/-- The guarded local-session insertion step of `smartMergeSessions`: a
local session is added only when its id is absent from the map. -/
def guardInsert (m : List ChatSession) (s : ChatSession) : List ChatSession :=
  if mapHas m s.id then m else dictInsertBy ChatSession.id m s

/-- Embedding of `smartMergeSessions`: backend sessions enter a map keyed
by id first, local sessions are added only when their id is absent, and the
values are sorted by `lastUpdated`, newest first. -/
def smartMergeSessions (backendSessions localSessions : List ChatSession) :
    List ChatSession :=
  let merged := backendSessions.foldl (dictInsertBy ChatSession.id) []
  let merged2 := localSessions.foldl guardInsert merged
  List.insertionSort sessionGE merged2

theorem keys_dictInsertBy_present {α : Type} (key : α → String) (m : List α) (d : α)
    (h : m.any (fun e => key e == key d) = true) :
    (dictInsertBy key m d).map key = m.map key := by
  unfold dictInsertBy
  rw [if_pos h, List.map_map]
  apply List.map_congr_left
  intro e _
  by_cases hk : key e = key d
  · simp [hk]
  · simp [hk]

theorem keys_dictInsertBy_absent {α : Type} (key : α → String) (m : List α) (d : α)
    (h : ¬ m.any (fun e => key e == key d) = true) :
    (dictInsertBy key m d).map key = m.map key ++ [key d] := by
  unfold dictInsertBy
  rw [if_neg h, List.map_append]
  rfl

theorem nodupKeys_dictInsertBy {α : Type} (key : α → String) (m : List α) (d : α)
    (h : (m.map key).Nodup) :
    ((dictInsertBy key m d).map key).Nodup := by
  by_cases hp : m.any (fun e => key e == key d) = true
  · rw [keys_dictInsertBy_present key m d hp]
    exact h
  · rw [keys_dictInsertBy_absent key m d hp]
    have hnot : key d ∉ m.map key := by
      intro hmem
      rcases List.mem_map.mp hmem with ⟨e, he, hke⟩
      exact hp (List.any_eq_true.mpr ⟨e, he, by simp [hke]⟩)
    simp [List.nodup_append, h, hnot]

theorem nodupKeys_foldl_dictInsert (ds : List Doc) :
    ∀ acc : List Doc, (acc.map Doc.page_content).Nodup →
      ((ds.foldl dictInsert acc).map Doc.page_content).Nodup := by
  induction ds with
  | nil => intro acc h; exact h
  | cons d ds ih =>
      intro acc h
      exact ih (dictInsert acc d) (nodupKeys_dictInsertBy Doc.page_content acc d h)

theorem nodupKeys_dedupByContent (ds : List Doc) :
    ((dedupByContent ds).map Doc.page_content).Nodup :=
  nodupKeys_foldl_dictInsert ds [] (by simp)

theorem retrieve_sublist_union (q : RetrievalQuery) (dense bm25 : List Doc) (k : Nat) :
    (retrieve q dense bm25 k).Sublist (dedupByContent (dense ++ bm25)) := by
  unfold retrieve filteredCandidates
  split
  · exact (List.take_sublist _ _).trans (List.filter_sublist _)
  · exact List.take_sublist _ _

/-- C4: no two fragments in a retrieval result have identical text — the
dense/sparse union is deduplicated by exact fragment text, and filtering and
truncation preserve that. -/
theorem retrieve_dedup_by_content (q : RetrievalQuery) (dense bm25 : List Doc) (k : Nat) :
    ((retrieve q dense bm25 k).map Doc.page_content).Nodup :=
  ((retrieve_sublist_union q dense bm25 k).map Doc.page_content).nodup
    (nodupKeys_dedupByContent (dense ++ bm25))

theorem strictFilterActive_of (q : RetrievalQuery)
    (hs : q.strategy ≠ Strategy.no_filter) (hd : q.dates ≠ []) :
    strictFilterActive q = true := by
  unfold strictFilterActive
  simp [hs, hd]

/-- C1: when the strategy is not `no_filter` and the target date set is
non-empty, every fragment in the retrieval result carries a metadata date
that is a member of that set. -/
theorem retrieve_strict_filter (q : RetrievalQuery) (dense bm25 : List Doc) (k : Nat)
    (hs : q.strategy ≠ Strategy.no_filter) (hd : q.dates ≠ []) :
    ∀ d ∈ retrieve q dense bm25 k, ∃ dt, d.date = some dt ∧ dt ∈ q.dates := by
  intro d hdm
  unfold retrieve filteredCandidates at hdm
  rw [if_pos (strictFilterActive_of q hs hd)] at hdm
  have hfil := List.mem_filter.mp (List.mem_of_mem_take hdm)
  have hmatch := hfil.2
  unfold dateMatch at hmatch
  cases hdate : d.date with
  | none => rw [hdate] at hmatch; exact absurd hmatch (by simp)
  | some dt =>
      rw [hdate] at hmatch
      exact ⟨dt, rfl, by simpa using hmatch⟩

/-- C1 witness: a concrete strict-filtered retrieval whose single result
carries the target date. -/
theorem retrieve_strict_filter_witness :
    ∃ dt, (Doc.mk "laporan unit 7" (some "2025-03-01")).date = some dt ∧
      dt ∈ ["2025-03-01"] :=
  retrieve_strict_filter
    (RetrievalQuery.mk "q" ["2025-03-01"] Strategy.explicit)
    [Doc.mk "laporan unit 7" (some "2025-03-01"), Doc.mk "lain" (some "2025-04-09")]
    [Doc.mk "tanpa tanggal" none] 6
    (by decide) (by decide)
    (Doc.mk "laporan unit 7" (some "2025-03-01")) (by decide)

/-- C2: when strict filtering leaves zero candidates the final result is the
empty list, and in every case the result is drawn from the single filtered
candidate set — there is no unfiltered re-query. -/
theorem retrieve_no_fallback (q : RetrievalQuery) (dense bm25 : List Doc) (k : Nat)
    (h : filteredCandidates q dense bm25 = []) :
    retrieve q dense bm25 k = [] ∧
      retrieve q dense bm25 k = (filteredCandidates q dense bm25).take k := by
  constructor
  · unfold retrieve
    rw [h]
    exact List.take_nil
  · rfl

/-- C2 witness: a concrete retrieval where the strict filter removes every
candidate and the result is empty. -/
theorem retrieve_no_fallback_witness :
    retrieve (RetrievalQuery.mk "q" ["2025-03-01"] Strategy.explicit)
        [Doc.mk "a" (some "2025-04-09")] [Doc.mk "b" none] 6 = [] ∧
      retrieve (RetrievalQuery.mk "q" ["2025-03-01"] Strategy.explicit)
        [Doc.mk "a" (some "2025-04-09")] [Doc.mk "b" none] 6 =
      (filteredCandidates (RetrievalQuery.mk "q" ["2025-03-01"] Strategy.explicit)
        [Doc.mk "a" (some "2025-04-09")] [Doc.mk "b" none]).take 6 :=
  retrieve_no_fallback
    (RetrievalQuery.mk "q" ["2025-03-01"] Strategy.explicit)
    [Doc.mk "a" (some "2025-04-09")] [Doc.mk "b" none] 6 (by decide)

/-- C9: `authAPI.logout` removes the `auth_token` and `session_id` cookies
even when the POST throws, and the returned promise resolves in every case —
local logout is unconditional. -/
theorem logout_unconditional (post : HttpOutcome) (c : CookieState) :
    (logout post c).1.auth_token = none ∧ (logout post c).1.session_id = none ∧
      (logout post c).2 = true := by
  cases post <;> exact ⟨rfl, rfl, rfl⟩

theorem analyze_no_filter_core (q : String)
    (hp : parse_multiple_dates_from_question q = [])
    (hc : is_comparative_query q = false) :
    analyze_query_and_get_dates q (parse_multiple_dates_from_question q) =
      ([], Strategy.no_filter) := by
  rw [hp]
  simp [analyze_query_and_get_dates, hc]

/-- C3 counterexample: a query with no parsed dates and no comparative
intent does reach strategy `no_filter` with an empty date list, but the chat
layer then appends the fabricated default hint "Use March 1-5, 2025" to the
outgoing query instead of leaving it unhinted. -/
theorem no_filter_query_gets_default_hint :
    analyze_query_and_get_dates "apa isi laporan"
        (parse_multiple_dates_from_question "apa isi laporan") =
      ([], Strategy.no_filter) ∧
    enhanced_query "apa isi laporan" =
      "apa isi laporan" ++ "\n\n" ++ "[SYSTEM HINT: Use March 1-5, 2025]" := by
  constructor
  · decide
  · decide

/-- C3 (amended): for a query with no parsed dates and no comparative-intent
match the analyzer returns strategy `no_filter` with an empty date list, and
the chat layer appends the default "Use March 1-5, 2025" hint to the query
it sends onward. -/
theorem analyze_no_filter_with_default_hint (q : String)
    (hp : parse_multiple_dates_from_question q = [])
    (hc : is_comparative_query q = false) :
    analyze_query_and_get_dates q (parse_multiple_dates_from_question q) =
      ([], Strategy.no_filter) ∧
    enhanced_query q = q ++ "\n\n" ++ "[SYSTEM HINT: Use March 1-5, 2025]" := by
  have h1 := analyze_no_filter_core q hp hc
  refine ⟨h1, ?_⟩
  unfold enhanced_query dates_to_use
  rw [h1]
  rfl

/-- C3 witness: the amended behaviour at the concrete query
"berapa produksi listrik". -/
theorem analyze_no_filter_with_default_hint_witness :
    analyze_query_and_get_dates "berapa produksi listrik"
        (parse_multiple_dates_from_question "berapa produksi listrik") =
      ([], Strategy.no_filter) ∧
    enhanced_query "berapa produksi listrik" =
      "berapa produksi listrik" ++ "\n\n" ++ "[SYSTEM HINT: Use March 1-5, 2025]" :=
  analyze_no_filter_with_default_hint "berapa produksi listrik"
    (by decide) (by decide)

/-- C8: in every state reachable by the retrieval limiter at most
`semCapacity = 3` retrievals run at once, and an arrival in a saturated
state queues rather than fails. -/
theorem retrieval_semaphore_bound (s : SemState) (h : SemReachable s) :
    s.running ≤ semCapacity ∧
      (semCapacity ≤ s.running → SemStep s ⟨s.running, s.queued + 1⟩) := by
  constructor
  · induction h with
    | init => exact Nat.zero_le _
    | step hr hstep ih =>
        cases hstep with
        | acquire hlt => exact hlt
        | enqueue hge => exact ih
        | releaseWake h1 h2 => exact ih
        | release h1 h2 => exact Nat.le_trans (Nat.sub_le _ _) ih
  · exact fun hge => SemStep.enqueue s hge

/-- C8 witness: the state with one running retrieval is reachable and
satisfies the bound. -/
theorem retrieval_semaphore_bound_witness :
    (SemState.mk 1 0).running ≤ semCapacity ∧
      (semCapacity ≤ (SemState.mk 1 0).running →
        SemStep (SemState.mk 1 0) ⟨(SemState.mk 1 0).running, (SemState.mk 1 0).queued + 1⟩) :=
  retrieval_semaphore_bound (SemState.mk 1 0)
    (SemReachable.step SemReachable.init (SemStep.acquire (SemState.mk 0 0) (by decide)))

theorem mem_insertKey (x b : Nat) (l : List Nat) (h : b ∈ insertKey x l) :
    b = x ∨ b ∈ l := by
  induction l with
  | nil =>
      simp [insertKey] at h
      exact Or.inl h
  | cons y ys ih =>
      unfold insertKey at h
      by_cases h1 : x < y
      · rw [if_pos h1] at h
        rcases List.mem_cons.mp h with rfl | h2
        · exact Or.inl rfl
        · exact Or.inr h2
      · rw [if_neg h1] at h
        by_cases h2 : x = y
        · rw [if_pos h2] at h
          exact Or.inr h
        · rw [if_neg h2] at h
          rcases List.mem_cons.mp h with rfl | h3
          · exact Or.inr (List.mem_cons_self _ _)
          · rcases ih h3 with hx | hy
            · exact Or.inl hx
            · exact Or.inr (List.mem_cons_of_mem _ hy)

theorem pairwise_insertKey (x : Nat) (l : List Nat)
    (h : l.Pairwise (· < ·)) : (insertKey x l).Pairwise (· < ·) := by
  induction l with
  | nil => simp [insertKey]
  | cons y ys ih =>
      rw [List.pairwise_cons] at h
      obtain ⟨hy, hys⟩ := h
      unfold insertKey
      by_cases h1 : x < y
      · rw [if_pos h1]
        refine List.Pairwise.cons ?_ (List.Pairwise.cons hy hys)
        intro b hb
        rcases List.mem_cons.mp hb with rfl | hb2
        · exact h1
        · exact Nat.lt_trans h1 (hy b hb2)
      · rw [if_neg h1]
        by_cases h2 : x = y
        · rw [if_pos h2]
          exact List.Pairwise.cons hy hys
        · rw [if_neg h2]
          refine List.Pairwise.cons ?_ (ih hys)
          intro b hb
          rcases mem_insertKey x b ys hb with rfl | hb2
          · omega
          · exact hy b hb2

theorem pairwise_sortDedupKeys (l : List Nat) :
    (sortDedupKeys l).Pairwise (· < ·) := by
  induction l with
  | nil => simp [sortDedupKeys]
  | cons x xs ih => exact pairwise_insertKey x (sortDedupKeys xs) ih

theorem splitAtMonth_eq_none (ts : List QTok)
    (h : ts.any (fun t => match t with | QTok.monthName _ => true | _ => false) = false) :
    splitAtMonth ts = none := by
  induction ts with
  | nil => rfl
  | cons t rest ih =>
      rw [List.any_cons, Bool.or_eq_false_iff] at h
      cases t with
      | monthName m => simp at h
      | day n => rw [show splitAtMonth (QTok.day n :: rest) =
          (splitAtMonth rest).map (fun pmp => (QTok.day n :: pmp.1, pmp.2.1, pmp.2.2))
          from rfl, ih h.2]; rfl
      | dayRange a b => rw [show splitAtMonth (QTok.dayRange a b :: rest) =
          (splitAtMonth rest).map (fun pmp => (QTok.dayRange a b :: pmp.1, pmp.2.1, pmp.2.2))
          from rfl, ih h.2]; rfl
      | yearNum y => rw [show splitAtMonth (QTok.yearNum y :: rest) =
          (splitAtMonth rest).map (fun pmp => (QTok.yearNum y :: pmp.1, pmp.2.1, pmp.2.2))
          from rfl, ih h.2]; rfl
      | rangeConn => rw [show splitAtMonth (QTok.rangeConn :: rest) =
          (splitAtMonth rest).map (fun pmp => (QTok.rangeConn :: pmp.1, pmp.2.1, pmp.2.2))
          from rfl, ih h.2]; rfl
      | listConn => rw [show splitAtMonth (QTok.listConn :: rest) =
          (splitAtMonth rest).map (fun pmp => (QTok.listConn :: pmp.1, pmp.2.1, pmp.2.2))
          from rfl, ih h.2]; rfl
      | skipWord => rw [show splitAtMonth (QTok.skipWord :: rest) =
          (splitAtMonth rest).map (fun pmp => (QTok.skipWord :: pmp.1, pmp.2.1, pmp.2.2))
          from rfl, ih h.2]; rfl
      | other => rw [show splitAtMonth (QTok.other :: rest) =
          (splitAtMonth rest).map (fun pmp => (QTok.other :: pmp.1, pmp.2.1, pmp.2.2))
          from rfl, ih h.2]; rfl

/-- C5: the date parser is a pure function (two runs on equal input agree),
its key list is strictly ascending — so the returned date list is in
ascending date order with duplicates removed — and a query with no
month-name token (every supported date expression contains one) parses to
the empty list as an ordinary, non-error result. -/
theorem parseDates_deterministic_sorted (q : String) :
    parse_multiple_dates_from_question q = parse_multiple_dates_from_question q ∧
    (parseDateKeys q).Pairwise (· < ·) ∧
    (hasMonthToken q = false → parse_multiple_dates_from_question q = []) := by
  refine ⟨rfl, pairwise_sortDedupKeys (rawDateKeys q), ?_⟩
  intro h
  unfold hasMonthToken at h
  unfold parse_multiple_dates_from_question parseDateKeys rawDateKeys
  rw [splitAtMonth_eq_none (lexQuery q) h]
  rfl

/-- C5 witness: a concrete query with no date expression parses to the empty
list. -/
theorem parseDates_deterministic_sorted_witness :
    parse_multiple_dates_from_question "berapa total produksi" = [] :=
  (parseDates_deterministic_sorted "berapa total produksi").2.2 (by decide)

/-- C6: the range expression "1–3 Maret" with no year parses to exactly the
three March dates under the canonical default year 2025; in general a day
range expands to every day of the inclusive range, and an omitted year falls
back to the canonical default. -/
theorem parse_range_default_year :
    parse_multiple_dates_from_question "1–3 Maret" =
      ["2025-03-01", "2025-03-02", "2025-03-03"] ∧
    (∀ a b : Nat, a ≤ b → rangeDays a b = List.range' a (b - a + 1)) ∧
    yearOf [] = 2025 := by
  refine ⟨by decide, ?_, rfl⟩
  intro a b hab
  simp [rangeDays, hab]

/-- C6 witness: the inclusive-range expansion applied at 1 and 3. -/
theorem parse_range_default_year_witness :
    rangeDays 1 3 = List.range' 1 (3 - 1 + 1) :=
  parse_range_default_year.2.1 1 3 (by decide)

theorem chunkChars_short (t : List Char) (h : t.length ≤ chunkSize) :
    chunkChars t = [t] := by
  rw [chunkChars]
  rw [dif_pos h]

theorem chunkChars_long (t : List Char) (h : ¬ t.length ≤ chunkSize) :
    chunkChars t = t.take chunkSize :: chunkChars (t.drop chunkStride) := by
  rw [chunkChars]
  rw [dif_neg h]

theorem chunkChars_ne_nil (t : List Char) : chunkChars t ≠ [] := by
  by_cases h : t.length ≤ chunkSize
  · rw [chunkChars_short t h]
    exact List.cons_ne_nil _ _
  · rw [chunkChars_long t h]
    exact List.cons_ne_nil _ _

theorem chunkChars_head (u hd : List Char) (rest : List (List Char))
    (hc : chunkChars u = hd :: rest) : hd = u ∨ hd.length = chunkSize := by
  by_cases h : u.length ≤ chunkSize
  · rw [chunkChars_short u h] at hc
    exact Or.inl (List.cons.inj hc).1.symm
  · rw [chunkChars_long u h] at hc
    right
    rw [← (List.cons.inj hc).1]
    simp only [List.length_take]
    exact Nat.min_eq_left (Nat.le_of_lt (Nat.lt_of_not_le h))

theorem recon_drop (hd : List Char) (rest : List (List Char))
    (hlen : chunkOverlap ≤ hd.length) :
    (reconstructChars (hd :: rest)).drop chunkOverlap =
      ((hd :: rest).map (fun f => f.drop chunkOverlap)).flatten := by
  simp only [reconstructChars, List.map_cons, List.flatten_cons]
  rw [List.drop_append_eq_append_drop, Nat.sub_eq_zero_of_le hlen, List.drop_zero]

/-- C7: chunking is lossless — concatenating the fragments of a document
while trimming the fixed overlap from every fragment after the first
reconstructs the document text exactly, and a document no longer than the
target chunk size yields exactly one fragment. -/
theorem chunk_roundtrip (t : List Char) :
    reconstructChars (chunkChars t) = t ∧
      (t.length ≤ chunkSize → chunkChars t = [t]) := by
  refine ⟨?_, fun h => chunkChars_short t h⟩
  by_cases h : t.length ≤ chunkSize
  · rw [chunkChars_short t h]
    simp [reconstructChars]
  · rw [chunkChars_long t h]
    have hrec : reconstructChars (chunkChars (t.drop chunkStride)) = t.drop chunkStride :=
      (chunk_roundtrip (t.drop chunkStride)).1
    have hulen : chunkOverlap < (t.drop chunkStride).length := by
      simp only [List.length_drop]
      have h1 : chunkStride = 800 := rfl
      have h2 : chunkSize = 1000 := rfl
      have h3 : chunkOverlap = 200 := rfl
      omega
    cases hc : chunkChars (t.drop chunkStride) with
    | nil => exact absurd hc (chunkChars_ne_nil _)
    | cons hd rest =>
        have hhd : chunkOverlap ≤ hd.length := by
          rcases chunkChars_head (t.drop chunkStride) hd rest hc with heq | hlen2
          · rw [heq]
            exact Nat.le_of_lt hulen
          · rw [hlen2]
            decide
        show t.take chunkSize ++
            ((hd :: rest).map (fun f => f.drop chunkOverlap)).flatten = t
        rw [← recon_drop hd rest hhd, ← hc, hrec, List.drop_drop]
        rw [show chunkStride + chunkOverlap = chunkSize from rfl]
        exact List.take_append_drop _ _
termination_by t.length
decreasing_by
  simp only [List.length_drop]
  have h1 : chunkStride = 800 := rfl
  have h2 : chunkSize = 1000 := rfl
  omega

/-- C7 witness: the round trip and the single-fragment edge case at a
concrete short document. -/
theorem chunk_roundtrip_witness :
    reconstructChars (chunkChars ("laporan shift pagi".toList)) =
        "laporan shift pagi".toList ∧
      (("laporan shift pagi".toList).length ≤ chunkSize →
        chunkChars ("laporan shift pagi".toList) = ["laporan shift pagi".toList]) :=
  chunk_roundtrip ("laporan shift pagi".toList)

theorem foldl_dictInsertBy_of_nodup {α : Type} (key : α → String) :
    ∀ (ds acc : List α), (((acc ++ ds).map key).Nodup) →
      ds.foldl (dictInsertBy key) acc = acc ++ ds := by
  intro ds
  induction ds with
  | nil => intro acc _; simp
  | cons d ds ih =>
      intro acc h
      have hnotin : key d ∉ acc.map key := by
        intro hmem
        rw [List.map_append, List.nodup_append] at h
        exact h.2.2 hmem (by simp)
      have hany : ¬ acc.any (fun e => key e == key d) = true := by
        intro ha
        rcases List.any_eq_true.mp ha with ⟨e, he, hke⟩
        exact hnotin (List.mem_map.mpr ⟨e, he, by simpa using hke⟩)
      have hins : dictInsertBy key acc d = acc ++ [d] := by
        unfold dictInsertBy
        rw [if_neg hany]
      rw [List.foldl_cons, hins, ih (acc ++ [d]) (by simpa using h)]
      simp

theorem mem_foldl_guardInsert :
    ∀ (ls m : List ChatSession) (x : ChatSession), x ∈ m →
      x ∈ ls.foldl guardInsert m := by
  intro ls
  induction ls with
  | nil => intro m x hx; exact hx
  | cons l ls ih =>
      intro m x hx
      rw [List.foldl_cons]
      apply ih
      unfold guardInsert
      by_cases hs : mapHas m l.id
      · rw [if_pos hs]; exact hx
      · rw [if_neg hs]
        unfold mapHas at hs
        have : dictInsertBy ChatSession.id m l = m ++ [l] := by
          unfold dictInsertBy
          rw [if_neg]
          simpa using hs
        rw [this]
        exact List.mem_append_left _ hx

theorem nodupKeys_foldl_guardInsert :
    ∀ (ls m : List ChatSession), ((m.map ChatSession.id).Nodup) →
      (((ls.foldl guardInsert m).map ChatSession.id).Nodup) := by
  intro ls
  induction ls with
  | nil => intro m h; exact h
  | cons l ls ih =>
      intro m h
      rw [List.foldl_cons]
      apply ih
      unfold guardInsert
      by_cases hs : mapHas m l.id
      · rw [if_pos hs]; exact h
      · rw [if_neg hs]
        exact nodupKeys_dictInsertBy ChatSession.id m l h

/-- C10: `smartMergeSessions` returns a list with pairwise distinct session
ids, every backend session survives the merge (so an id present in both
lists keeps the backend version), and the output is sorted by `lastUpdated`
newest first. -/
theorem smartMergeSessions_spec (backend locals : List ChatSession)
    (hb : (backend.map ChatSession.id).Nodup) :
    ((smartMergeSessions backend locals).map ChatSession.id).Nodup ∧
      (∀ s ∈ backend, s ∈ smartMergeSessions backend locals) ∧
      List.Sorted sessionGE (smartMergeSessions backend locals) := by
  have hmerged : backend.foldl (dictInsertBy ChatSession.id) [] = backend := by
    simpa using foldl_dictInsertBy_of_nodup ChatSession.id backend [] (by simpa using hb)
  unfold smartMergeSessions
  rw [hmerged]
  have hperm : (List.insertionSort sessionGE (locals.foldl guardInsert backend)).Perm
      (locals.foldl guardInsert backend) := List.perm_insertionSort _ _
  refine ⟨?_, ?_, ?_⟩
  · exact (List.Perm.nodup_iff (List.Perm.map ChatSession.id hperm)).mpr
      (nodupKeys_foldl_guardInsert locals backend hb)
  · intro s hs
    exact (List.Perm.mem_iff hperm).mpr (mem_foldl_guardInsert locals backend s hs)
  · exact List.sorted_insertionSort sessionGE _

/-- C10 witness: a concrete merge — a session id present in both lists keeps
the backend version, ids are distinct, order is newest first. -/
theorem smartMergeSessions_spec_witness :
    ((smartMergeSessions
        [ChatSession.mk "a" "backend a" 5, ChatSession.mk "b" "backend b" 1]
        [ChatSession.mk "a" "local a" 9, ChatSession.mk "c" "local c" 3]).map
          ChatSession.id).Nodup ∧
      (∀ s ∈ [ChatSession.mk "a" "backend a" 5, ChatSession.mk "b" "backend b" 1],
        s ∈ smartMergeSessions
          [ChatSession.mk "a" "backend a" 5, ChatSession.mk "b" "backend b" 1]
          [ChatSession.mk "a" "local a" 9, ChatSession.mk "c" "local c" 3]) ∧
      List.Sorted sessionGE (smartMergeSessions
        [ChatSession.mk "a" "backend a" 5, ChatSession.mk "b" "backend b" 1]
        [ChatSession.mk "a" "local a" 9, ChatSession.mk "c" "local c" 3]) :=
  smartMergeSessions_spec
    [ChatSession.mk "a" "backend a" 5, ChatSession.mk "b" "backend b" 1]
    [ChatSession.mk "a" "local a" 9, ChatSession.mk "c" "local c" 3]
    (by decide)

end DocAssistants
